import Mathlib

/-!
Verification of the Hecto text-editor core: a shallow embedding of the
annotated-string, grapheme-line and text-buffer layers, together with proofs
about them.

Modelling conventions:
* Rust `String` values are modelled as `List Char`; a byte index into the
  UTF-8 encoding is modelled as a position in that list.  All the verified
  operations treat indices opaquely, so this relabelling is faithful.
* `usize` arithmetic is modelled on `Nat`; `saturating_sub` is Lean's
  truncated subtraction and `saturating_add` is ordinary addition.
* `debug_assert!` has no runtime effect in release builds and is ignored;
  where a debug build would panic the release fallback value is modelled and
  noted next to the definition.
* Grapheme segmentation (the external `unicode_segmentation` crate) is
  modelled by the rule that a combining mark (U+0300..U+036F) never starts a
  new cluster while every other character does: UAX#29 rule GB9 restricted to
  that range.  This is exact on text made of ASCII plus combining marks.
-/

namespace Hecto

/-- The two annotation kinds of the editor (`AnnotationType` in the source). -/
inductive AnnotType where
  | Match
  | SelectedMatch
deriving DecidableEq

/-- A type-tagged half-open byte range (the annotated string's range record
in the source, with fields `annotation_type`, `start_byte_idx`,
`end_byte_idx`). -/
structure Annot where
  annot_type : AnnotType
  start_byte_idx : Nat
  end_byte_idx : Nat
deriving DecidableEq

/-- A string together with its list of style ranges (`AnnotatedString`).
The field `annots` models the source field `annotations`. -/
structure AnnotatedString where
  string : List Char
  annots : List Annot
deriving DecidableEq

/-- `AnnotatedString::from`: the given text with no ranges. -/
def AnnotatedString.fromStr (s : List Char) : AnnotatedString :=
  ⟨s, []⟩

/-- `AnnotatedString::add_annotation`: pushes a new range onto the list.
The `debug_assert!(start <= end)` is ignored (see the module comment). -/
def AnnotatedString.add_annot (a : AnnotatedString) (t : AnnotType)
    (st en : Nat) : AnnotatedString :=
  { a with annots := a.annots ++ [⟨t, st, en⟩] }

/-- The per-position adjustment of `AnnotatedString::replace` applied to a
range endpoint, with `en` the already clipped end of the replaced range and
`newLen` the length of the replacement text.  The source branches on
`shortened = new_len < replaced_len` and shifts or clamps by
`len_difference = abs_diff`; both endpoint fields go through this very same
three-way branch. -/
def adjustPos (st en newLen pos : Nat) : Nat :=
  if en ≤ pos then
    if newLen < en - st then pos - ((en - st) - newLen)
    else pos + (newLen - (en - st))
  else if st ≤ pos then
    if newLen < en - st then max st (pos - ((en - st) - newLen))
    else min en (pos + (newLen - (en - st)))
  else pos

/-- Endpoint adjustment lifted to a whole range, as in the body of the
`for_each` inside `AnnotatedString::replace`. -/
def adjustAnnot (st en newLen : Nat) (an : Annot) : Annot :=
  ⟨an.annot_type, adjustPos st en newLen an.start_byte_idx,
    adjustPos st en newLen an.end_byte_idx⟩

/-- `AnnotatedString::replace`: clips the end to the text length, returns
unchanged when the start exceeds the clipped end, splices the new text in,
and when the length changed adjusts every range and retains only those with
`start < end` and `start < new_len`.  When the replaced range and the new
text have equal length (`len_difference == 0`) the source returns before
touching the ranges. -/
def AnnotatedString.replace (a : AnnotatedString) (st en : Nat)
    (ns : List Char) : AnnotatedString :=
  if min en a.string.length < st then a
  else if ns.length = min en a.string.length - st then
    { a with string :=
        a.string.take st ++ ns ++ a.string.drop (min en a.string.length) }
  else
    { string := a.string.take st ++ ns ++ a.string.drop (min en a.string.length),
      annots := (a.annots.map
          (adjustAnnot st (min en a.string.length) ns.length)).filter
        (fun an => decide (an.start_byte_idx < an.end_byte_idx) &&
          decide (an.start_byte_idx <
            (a.string.take st ++ ns ++
              a.string.drop (min en a.string.length)).length)) }

/-- The covering test of the iterator's filter: the range contains the byte
`idx`. -/
def covers (idx : Nat) (an : Annot) : Bool :=
  decide (an.start_byte_idx ≤ idx) && decide (idx < an.end_byte_idx)

/-- The annotation the iterator selects at byte `idx`:
`annotations.iter().filter(covering).last()` — the last-added covering
range. -/
def activeAnnot (a : AnnotatedString) (idx : Nat) : Option Annot :=
  (a.annots.filter (covers idx)).getLast?

/-- End of an unannotated segment starting at `idx`: the source folds over the
annotations, lowering `end_idx` (initially the text length) to every range
start that lies strictly beyond `idx`. -/
def unannotEnd (a : AnnotatedString) (idx : Nat) : Nat :=
  a.annots.foldl
    (fun e an =>
      if idx < an.start_byte_idx ∧ an.start_byte_idx < e then an.start_byte_idx
      else e)
    a.string.length

/-- End byte of the part the iterator yields at `idx`: the covering range's
end clipped to the text length, otherwise the next range start. -/
def partEnd (a : AnnotatedString) (idx : Nat) : Nat :=
  match activeAnnot a idx with
  | some an => min an.end_byte_idx a.string.length
  | none => unannotEnd a idx

/-- Tag of the part the iterator yields at `idx`. -/
def partTagAt (a : AnnotatedString) (idx : Nat) : Option AnnotType :=
  (activeAnnot a idx).map Annot.annot_type

/-- One segment yielded by the iterator (`AnnotatedStringPart`). -/
structure Part where
  string : List Char
  annot_type : Option AnnotType
deriving DecidableEq

/-- The sublist of `s` from position `i` (inclusive) to `j` (exclusive),
modelling the Rust slice `&s[i..j]`. -/
def slice (s : List Char) (i j : Nat) : List Char :=
  (s.take j).drop i

/-- The iterator's `next` calls, run to exhaustion from byte `idx`.  Each
call advances `current_idx` by at least one byte, so `fuel = string length`
makes the fuel bound unreachable and the list collects exactly the yielded
parts. -/
def partsGo (a : AnnotatedString) : Nat → Nat → List Part
  | 0, _ => []
  | fuel + 1, idx =>
    if idx < a.string.length then
      ⟨slice a.string idx (partEnd a idx), partTagAt a idx⟩ ::
        partsGo a fuel (partEnd a idx)
    else []

/-- All parts yielded by iterating the annotated string from the start. -/
def parts (a : AnnotatedString) : List Part :=
  partsGo a a.string.length 0

/-- The part whose text contains relative byte `b`, reading the yielded
parts in order — how a renderer locates the styling of one byte. -/
def partContaining : List Part → Nat → Option Part
  | [], _ => none
  | p :: ps, b =>
    if b < p.string.length then some p else partContaining ps (b - p.string.length)

lemma getLast?_mem {α : Type} : ∀ {l : List α} {x : α}, l.getLast? = some x → x ∈ l
  | [], _, h => by simp at h
  | [a], x, h => by
      simp [List.getLast?] at h
      simp [h]
  | a :: b :: t, x, h => by
      rw [List.getLast?_cons_cons] at h
      exact List.mem_cons_of_mem a (getLast?_mem h)

lemma unannotFold_le {idx : Nat} :
    ∀ (l : List Annot) (e : Nat),
      l.foldl
        (fun e an =>
          if idx < an.start_byte_idx ∧ an.start_byte_idx < e then an.start_byte_idx
          else e) e ≤ e := by
  intro l
  induction l with
  | nil => intro e; simp
  | cons an t ih =>
      intro e
      simp only [List.foldl_cons]
      split
      · exact le_trans (ih _) (le_of_lt (by omega))
      · exact ih e

lemma lt_unannotFold {idx : Nat} :
    ∀ (l : List Annot) (e : Nat), idx < e →
      idx < l.foldl
        (fun e an =>
          if idx < an.start_byte_idx ∧ an.start_byte_idx < e then an.start_byte_idx
          else e) e := by
  intro l
  induction l with
  | nil => intro e h; simpa using h
  | cons an t ih =>
      intro e h
      simp only [List.foldl_cons]
      split
      · exact ih _ (by omega)
      · exact ih e h

lemma unannotFold_le_start {idx : Nat} :
    ∀ (l : List Annot) (e : Nat) (an : Annot), an ∈ l →
      idx < an.start_byte_idx →
      l.foldl
        (fun e an =>
          if idx < an.start_byte_idx ∧ an.start_byte_idx < e then an.start_byte_idx
          else e) e ≤ an.start_byte_idx := by
  intro l
  induction l with
  | nil => intro e an h; simp at h
  | cons b t ih =>
      intro e an hmem hlt
      simp only [List.foldl_cons]
      rcases List.mem_cons.mp hmem with rfl | hmem
      · by_cases hb : idx < an.start_byte_idx ∧ an.start_byte_idx < e
        · rw [if_pos hb]; exact unannotFold_le t _
        · rw [if_neg hb]
          exact le_trans (unannotFold_le t e) (by omega)
      · exact ih _ an hmem hlt

lemma unannotEnd_le (a : AnnotatedString) (idx : Nat) :
    unannotEnd a idx ≤ a.string.length :=
  unannotFold_le a.annots a.string.length

lemma lt_unannotEnd (a : AnnotatedString) (idx : Nat)
    (h : idx < a.string.length) : idx < unannotEnd a idx :=
  lt_unannotFold a.annots a.string.length h

lemma unannotEnd_le_start (a : AnnotatedString) (idx : Nat) (an : Annot)
    (hmem : an ∈ a.annots) (hlt : idx < an.start_byte_idx) :
    unannotEnd a idx ≤ an.start_byte_idx :=
  unannotFold_le_start a.annots a.string.length an hmem hlt

lemma activeAnnot_covers {a : AnnotatedString} {idx : Nat} {an : Annot}
    (h : activeAnnot a idx = some an) :
    an ∈ a.annots ∧ an.start_byte_idx ≤ idx ∧ idx < an.end_byte_idx := by
  have hmem := getLast?_mem h
  have := List.mem_filter.mp hmem
  refine ⟨this.1, ?_, ?_⟩ <;>
    · have hc := this.2
      simp [covers] at hc
      omega

lemma activeAnnot_eq_none {a : AnnotatedString} {idx : Nat}
    (h : activeAnnot a idx = none) :
    ∀ an ∈ a.annots, covers idx an = false := by
  intro an hmem
  have hfil : a.annots.filter (covers idx) = [] :=
    List.getLast?_eq_none_iff.mp h
  by_contra hc
  have : an ∈ a.annots.filter (covers idx) :=
    List.mem_filter.mpr ⟨hmem, by revert hc; cases covers idx an <;> simp⟩
  rw [hfil] at this
  simp at this

lemma partEnd_le (a : AnnotatedString) (idx : Nat) :
    partEnd a idx ≤ a.string.length := by
  unfold partEnd
  cases h : activeAnnot a idx with
  | some an => exact min_le_right _ _
  | none => exact unannotEnd_le a idx

lemma lt_partEnd (a : AnnotatedString) (idx : Nat)
    (h : idx < a.string.length) : idx < partEnd a idx := by
  unfold partEnd
  cases ha : activeAnnot a idx with
  | some an =>
      have := (activeAnnot_covers ha).2.2
      simp only []
      omega
  | none => exact lt_unannotEnd a idx h

lemma slice_append_drop {s : List Char} {i j : Nat} (hij : i ≤ j)
    (hj : j ≤ s.length) : slice s i j ++ s.drop j = s.drop i := by
  unfold slice
  rw [List.drop_take]
  have hdj : s.drop j = List.drop (j - i) (s.drop i) := by
    rw [List.drop_drop]
    congr 1
    omega
  rw [hdj, List.take_append_drop]

lemma slice_length {s : List Char} {i j : Nat} (hij : i ≤ j)
    (hj : j ≤ s.length) : (slice s i j).length = j - i := by
  unfold slice
  rw [List.length_drop, List.length_take]
  omega

lemma partsGo_flatten (a : AnnotatedString) :
    ∀ (fuel idx : Nat), a.string.length ≤ fuel + idx →
      ((partsGo a fuel idx).map Part.string).flatten = a.string.drop idx := by
  intro fuel
  induction fuel with
  | zero =>
      intro idx h
      simp only [partsGo, List.map_nil, List.flatten_nil]
      exact (List.drop_eq_nil_of_le (by omega)).symm
  | succ fuel ih =>
      intro idx h
      simp only [partsGo]
      split
      · next hidx =>
          have hlt := lt_partEnd a idx hidx
          have hle := partEnd_le a idx
          rw [List.map_cons, List.flatten_cons, ih (partEnd a idx) (by omega)]
          exact slice_append_drop (le_of_lt hlt) hle
      · next hidx =>
          simp only [List.map_nil, List.flatten_nil]
          exact (List.drop_eq_nil_of_le (by omega)).symm

/-- C1: for every text and every annotation list, iterating the resulting
`AnnotatedString` yields a sequence of parts — each one tagged with an
annotation type or untagged — whose concatenated text is exactly the full
text, so every byte is covered exactly once with no gap and no overlap. -/
theorem C1_iteration_covers_text (a : AnnotatedString) :
    ((parts a).map Part.string).flatten = a.string := by
  have := partsGo_flatten a a.string.length 0 (by omega)
  simpa [parts] using this

/-- C4: for every `AnnotatedString`, replacement text and indices
`start ≤ end`, `replace` first clips `end` to the text length; it is a no-op
when `start` exceeds the clipped end, and otherwise the resulting text is
`text[..start] ++ new ++ text[clipped end..]`. -/
theorem C4_replace_text (a : AnnotatedString) (st en : Nat) (ns : List Char)
    (h : st ≤ en) :
    (min en a.string.length < st → a.replace st en ns = a) ∧
    (st ≤ min en a.string.length →
      (a.replace st en ns).string =
        a.string.take st ++ ns ++ a.string.drop (min en a.string.length)) := by
  constructor
  · intro hlt
    unfold AnnotatedString.replace
    rw [if_pos hlt]
  · intro hle
    unfold AnnotatedString.replace
    rw [if_neg (by omega)]
    split <;> rfl

theorem C4_replace_text_witness :
    (0 : Nat) ≤ 2 ∧
      ((AnnotatedString.fromStr ['a', 'b', 'c']).replace 0 2 ['x']).string =
        (AnnotatedString.fromStr ['a', 'b', 'c']).string.take 0 ++ ['x'] ++
          (AnnotatedString.fromStr ['a', 'b', 'c']).string.drop
            (min 2 (AnnotatedString.fromStr ['a', 'b', 'c']).string.length) :=
  ⟨by decide,
    (C4_replace_text (AnnotatedString.fromStr ['a', 'b', 'c']) 0 2 ['x']
      (by decide)).2 (by decide)⟩

lemma adjustPos_le {st en newLen pos len : Nat} (hst : st ≤ en)
    (hen : en ≤ len) (hpos : pos ≤ len) :
    adjustPos st en newLen pos ≤ len - (en - st) + newLen := by
  unfold adjustPos
  split_ifs <;> omega

lemma replace_string_length (a : AnnotatedString) (st : Nat) (ns : List Char)
    {en : Nat} (hst : st ≤ en) (hen : en ≤ a.string.length) :
    (a.string.take st ++ ns ++ a.string.drop en).length =
      a.string.length - (en - st) + ns.length := by
  simp only [List.length_append, List.length_take, List.length_drop]
  omega

/-- C3 fails as stated: `add_annotation` accepts a degenerate range and a
`replace` that does not change the text length returns before the dropping
pass, so the degenerate range survives the call. -/
theorem C3_cex :
    ∃ an ∈ (((AnnotatedString.fromStr ['a', 'b']).add_annot
        AnnotType.Match 1 1).replace 0 1 ['x']).annots,
      ¬an.start_byte_idx < an.end_byte_idx := by
  decide

/-- C3 (amended): if before the call every annotation satisfies
`start < end ≤ length of the text` — the stated `AnnotatedText` invariant —
then after any `replace(start, end, new)` every annotation still present
satisfies `0 ≤ start < end ≤ length of the new text`. -/
theorem C3_replace_invariant (a : AnnotatedString) (st en : Nat)
    (ns : List Char)
    (hpre : ∀ an ∈ a.annots,
      an.start_byte_idx < an.end_byte_idx ∧
        an.end_byte_idx ≤ a.string.length) :
    ∀ an ∈ (a.replace st en ns).annots,
      an.start_byte_idx < an.end_byte_idx ∧
        an.end_byte_idx ≤ (a.replace st en ns).string.length := by
  intro an hmem
  unfold AnnotatedString.replace at hmem ⊢
  by_cases h1 : min en a.string.length < st
  · rw [if_pos h1] at hmem ⊢
    exact hpre an hmem
  · rw [if_neg h1] at hmem ⊢
    by_cases h2 : ns.length = min en a.string.length - st
    · rw [if_pos h2] at hmem ⊢
      have hmem' : an ∈ a.annots := hmem
      have hlen :
          (a.string.take st ++ ns ++
            a.string.drop (min en a.string.length)).length =
            a.string.length := by
        rw [replace_string_length a st ns (by omega) (min_le_right _ _)]
        omega
      refine ⟨(hpre an hmem').1, ?_⟩
      show an.end_byte_idx ≤
        (a.string.take st ++ ns ++
          a.string.drop (min en a.string.length)).length
      rw [hlen]
      exact (hpre an hmem').2
    · rw [if_neg h2] at hmem ⊢
      have hf := List.mem_filter.mp hmem
      obtain ⟨an0, han0, rfl⟩ := List.mem_map.mp hf.1
      have hcond := hf.2
      simp only [Bool.and_eq_true, decide_eq_true_eq] at hcond
      refine ⟨hcond.1, ?_⟩
      show adjustPos st (min en a.string.length) ns.length an0.end_byte_idx ≤
        (a.string.take st ++ ns ++
          a.string.drop (min en a.string.length)).length
      rw [replace_string_length a st ns (by omega) (min_le_right _ _)]
      exact adjustPos_le (by omega) (min_le_right _ _) (hpre an0 han0).2

theorem C3_replace_invariant_witness :
    (∀ an ∈ ((AnnotatedString.fromStr ['h', 'i']).add_annot
        AnnotType.Match 0 2).annots,
      an.start_byte_idx < an.end_byte_idx ∧
        an.end_byte_idx ≤
          ((AnnotatedString.fromStr ['h', 'i']).add_annot
            AnnotType.Match 0 2).string.length) ∧
    ∀ an ∈ (((AnnotatedString.fromStr ['h', 'i']).add_annot
        AnnotType.Match 0 2).replace 0 1 []).annots,
      an.start_byte_idx < an.end_byte_idx ∧
        an.end_byte_idx ≤
          (((AnnotatedString.fromStr ['h', 'i']).add_annot
            AnnotType.Match 0 2).replace 0 1 []).string.length :=
  ⟨by decide,
    C3_replace_invariant
      ((AnnotatedString.fromStr ['h', 'i']).add_annot AnnotType.Match 0 2)
      0 1 [] (by decide)⟩

/-- A text with two overlapping annotations, the narrower one added last:
byte 1 is covered by both, but the iterator emits the whole text as one part
tagged by the range that covers the part's first byte. -/
def c2ex : AnnotatedString :=
  ((AnnotatedString.fromStr ['a', 'b', 'c']).add_annot
    AnnotType.Match 0 3).add_annot AnnotType.SelectedMatch 1 2

/-- C2 fails as stated: at byte 1 of `c2ex` the last-added covering
annotation is the `SelectedMatch` one, yet the part containing byte 1 is
tagged `Match`, because the iterator chooses the tag at the part's first
byte and runs the part to that range's end. -/
theorem C2_cex :
    (activeAnnot c2ex 1).map Annot.annot_type = some AnnotType.SelectedMatch ∧
    (partContaining (parts c2ex) 1).map Part.annot_type =
      some (some AnnotType.Match) ∧
    AnnotType.Match ≠ AnnotType.SelectedMatch := by
  decide

lemma partContaining_go (a : AnnotatedString) :
    ∀ (fuel idx b : Nat), a.string.length ≤ fuel + idx → idx ≤ b →
      b < a.string.length → (activeAnnot a b).isSome →
      ∃ i, idx ≤ i ∧ i ≤ b ∧ (activeAnnot a i).isSome ∧
        partContaining (partsGo a fuel idx) (b - idx) =
          some ⟨slice a.string i (partEnd a i), partTagAt a i⟩ := by
  intro fuel
  induction fuel with
  | zero => intro idx b h hib hb _; omega
  | succ fuel ih =>
      intro idx b h hib hb hcov
      have hidx : idx < a.string.length := lt_of_le_of_lt hib hb
      simp only [partsGo, if_pos hidx]
      have hpe_le := partEnd_le a idx
      have hpe_gt := lt_partEnd a idx hidx
      have hplen : (slice a.string idx (partEnd a idx)).length =
          partEnd a idx - idx := slice_length (le_of_lt hpe_gt) hpe_le
      by_cases hbp : b < partEnd a idx
      · refine ⟨idx, le_refl _, hib, ?_, ?_⟩
        · cases hia : activeAnnot a idx with
          | some an => simp
          | none =>
              exfalso
              obtain ⟨an, han⟩ := Option.isSome_iff_exists.mp hcov
              have hc := activeAnnot_covers han
              by_cases hs : an.start_byte_idx ≤ idx
              · have := activeAnnot_eq_none hia an hc.1
                simp [covers] at this
                omega
              · have hpe : partEnd a idx = unannotEnd a idx := by
                  unfold partEnd
                  rw [hia]
                have := unannotEnd_le_start a idx an hc.1 (by omega)
                omega
        · simp only [partContaining]
          rw [if_pos (by omega)]
      · obtain ⟨i, h1, h2, h3, h4⟩ :=
          ih (partEnd a idx) b (by omega) (by omega) hb hcov
        refine ⟨i, by omega, h2, h3, ?_⟩
        simp only [partContaining]
        rw [if_neg (by omega)]
        have harg : b - idx - (slice a.string idx (partEnd a idx)).length =
            b - partEnd a idx := by omega
        rw [harg]
        exact h4

/-- C2 (amended): for every byte covered by at least one annotation, the
iteration part containing that byte is an annotation-tagged part, and it
carries the annotation type of the last-added annotation covering the
*first byte* of that part (some position `i ≤ b`) — not necessarily of the
last-added annotation covering the byte itself. -/
theorem C2_part_tag (a : AnnotatedString) (b : Nat)
    (hb : b < a.string.length) (hcov : (activeAnnot a b).isSome) :
    ∃ i, i ≤ b ∧ (activeAnnot a i).isSome ∧
      partContaining (parts a) b =
        some ⟨slice a.string i (partEnd a i), partTagAt a i⟩ := by
  have := partContaining_go a a.string.length 0 b (by omega) (by omega) hb hcov
  obtain ⟨i, h1, h2, h3, h4⟩ := this
  exact ⟨i, h2, h3, by simpa [parts] using h4⟩

/-- A single full-width annotation used as a concrete input for
`C2_part_tag`. -/
def c2w : AnnotatedString :=
  (AnnotatedString.fromStr ['a', 'b']).add_annot AnnotType.Match 0 2

theorem C2_part_tag_witness :
    1 < c2w.string.length ∧ (activeAnnot c2w 1).isSome ∧
    ∃ i, i ≤ 1 ∧ (activeAnnot c2w i).isSome ∧
      partContaining (parts c2w) 1 =
        some ⟨slice c2w.string i (partEnd c2w i), partTagAt c2w i⟩ :=
  ⟨by decide, by decide, C2_part_tag c2w 1 (by decide) (by decide)⟩

/-- A combining mark (U+0300..U+036F).  Such a character extends the
preceding grapheme cluster instead of starting a new one. -/
def combining (c : Char) : Bool :=
  decide (0x300 ≤ c.toNat) && decide (c.toNat ≤ 0x36F)

/-- Prepends one character to a segmentation: the character joins the first
cluster when that cluster starts with a combining mark, and otherwise opens
a new cluster of its own. -/
def segCons (c : Char) : List (List Char) → List (List Char)
  | [] => [[c]]
  | [] :: cls => [c] :: cls
  | (d :: cl) :: cls =>
    if combining d then (c :: d :: cl) :: cls
    else [c] :: (d :: cl) :: cls

/-- Grapheme-cluster segmentation, the model of the external
`unicode_segmentation` crate used by `Line` (see the module comment):
a cluster boundary falls before every character that is not a combining
mark; a combining mark joins the cluster to its left, and a leading run of
combining marks forms a cluster of its own. -/
def segment : List Char → List (List Char)
  | [] => []
  | c :: rest => segCons c (segment rest)

/-- One grapheme cluster of a line (`TextFragment`): its text and the byte
offset where it starts in the owning line.  The display-only fields
`rendered_width` and `replacement` are not read by any verified operation
and are omitted from the model. -/
structure TextFragment where
  grapheme : List Char
  start : Nat
deriving DecidableEq

/-- Builds the fragment list from a cluster list, accumulating byte
offsets — the model of `Line::str_to_fragments`. -/
def fragsFrom (pos : Nat) : List (List Char) → List TextFragment
  | [] => []
  | cl :: cls => ⟨cl, pos⟩ :: fragsFrom (pos + cl.length) cls

/-- Byte offset at which cluster `i` of the cluster list `K` starts. -/
def clusterStart (K : List (List Char)) (i : Nat) : Nat :=
  ((K.take i).map List.length).sum

/-- A single line of text (`Line`): raw text plus the fragments derived
from it.  Every mutation of the source rebuilds the fragments from the raw
text, so every reachable line equals `Line.fromStr` of its string. -/
structure Line where
  fragments : List TextFragment
  string : List Char
deriving DecidableEq

/-- `Line::from` followed by `str_to_fragments`. -/
def Line.fromStr (s : List Char) : Line :=
  ⟨fragsFrom 0 (segment s), s⟩

/-- `Line::grapheme_count`. -/
def Line.grapheme_count (l : Line) : Nat :=
  l.fragments.length

/-- `String::insert` at byte position `i`. -/
def insertAt (s : List Char) (i : Nat) (c : Char) : List Char :=
  s.take i ++ c :: s.drop i

/-- `String::drain(i..j)`: removes the byte range. -/
def eraseRange (s : List Char) (i j : Nat) : List Char :=
  s.take i ++ s.drop j

/-- `Line::insert_char`: inserts at the byte offset of the fragment at the
grapheme index, or appends when the index is at or past the end, then
rebuilds the fragments. -/
def Line.insert_char (l : Line) (c : Char) (gidx : Nat) : Line :=
  match l.fragments[gidx]? with
  | some fr => Line.fromStr (insertAt l.string fr.start c)
  | none => Line.fromStr (l.string ++ [c])

/-- `Line::delete`: drains the byte span of the fragment at the grapheme
index and rebuilds; a no-op when the index is out of range. -/
def Line.delete (l : Line) (gidx : Nat) : Line :=
  match l.fragments[gidx]? with
  | some fr => Line.fromStr (eraseRange l.string fr.start (fr.start + fr.grapheme.length))
  | none => l

/-- `Line::append`: concatenates the raw text and rebuilds. -/
def Line.append (l other : Line) : Line :=
  Line.fromStr (l.string ++ other.string)

/-- `Line::split`: cuts the raw text at the byte offset of the fragment at
the grapheme index; the head stays (rebuilt), the tail becomes a new line.
Out of range: the line is unchanged and an empty line is returned. -/
def Line.split (l : Line) (gidx : Nat) : Line × Line :=
  match l.fragments[gidx]? with
  | some fr => (Line.fromStr (l.string.take fr.start), Line.fromStr (l.string.drop fr.start))
  | none => (l, Line.fromStr [])

/-- `Iterator::position`: index of the first element satisfying the
predicate. -/
def position {α : Type} (p : α → Bool) : List α → Option Nat
  | [] => none
  | x :: t => if p x then some 0 else (position p t).map (· + 1)

/-- `Line::byte_idx_to_grapheme_idx`: none beyond the text, else the first
fragment whose start is at or past the byte index. -/
def Line.byte_idx_to_grapheme_idx (l : Line) (b : Nat) : Option Nat :=
  if l.string.length < b then none
  else position (fun fr => decide (b ≤ fr.start)) l.fragments

/-- `Line::grapheme_idx_to_byte_idx`: 0 for index 0 or an empty line, else
the fragment's start; the out-of-range release fallback is 0 (a debug build
would panic there). -/
def Line.grapheme_idx_to_byte_idx (l : Line) (g : Nat) : Nat :=
  if g = 0 ∨ l.grapheme_count = 0 then 0
  else
    match l.fragments[g]? with
    | some fr => fr.start
    | none => 0

/-- `str::match_indices` for a nonempty pattern: a left-to-right
non-overlapping scan.  `skip` counts positions still inside the previous
match. -/
def matchIndicesGo (pat : List Char) : List Char → Nat → Nat → List Nat
  | [], _, _ => []
  | c :: t, pos, 0 =>
      if pat.isPrefixOf (c :: t) then
        pos :: matchIndicesGo pat t (pos + 1) (pat.length - 1)
      else matchIndicesGo pat t (pos + 1) 0
  | _ :: t, pos, skip + 1 => matchIndicesGo pat t (pos + 1) skip

/-- `str::match_indices`: for the empty pattern Rust yields a match at every
character boundary, including both ends. -/
def matchIndices (pat s : List Char) : List Nat :=
  if pat.isEmpty then List.range (s.length + 1)
  else matchIndicesGo pat s 0 0

/-- `Line::match_grapheme_clusters`: keeps a candidate byte position when it
lies on a fragment boundary and the next `query`-cluster-count fragments
spell exactly the query. -/
def Line.match_grapheme_clusters (l : Line) (ms : List Nat)
    (query : List Char) : List (Nat × Nat) :=
  ms.filterMap (fun st =>
    (l.byte_idx_to_grapheme_idx st).bind (fun g =>
      if g + (segment query).length ≤ l.fragments.length then
        if (((l.fragments.drop g).take (segment query).length).map
              TextFragment.grapheme).flatten = query
        then some (st, g)
        else none
      else none))

/-- `Line::find_all`: byte-level matches of the query inside the clipped
byte window, validated against grapheme boundaries.  `string.get` yields
nothing when the window is inverted. -/
def Line.find_all (l : Line) (query : List Char) (rstart rend : Nat) :
    List (Nat × Nat) :=
  if min rend l.string.length < rstart then []
  else
    l.match_grapheme_clusters
      ((matchIndices query
          (slice l.string rstart (min rend l.string.length))).map (· + rstart))
      query

/-- `Line::search_forward`: none when starting at the very end, else the
grapheme index of the first validated match from the starting byte to the
line end. -/
def Line.search_forward (l : Line) (query : List Char) (fromIdx : Nat) :
    Option Nat :=
  if fromIdx = l.grapheme_count then none
  else
    ((l.find_all query (l.grapheme_idx_to_byte_idx fromIdx)
        l.string.length).head?).map Prod.snd

/-- `Line::search_backward`: none when starting at 0, else the grapheme
index of the last validated match strictly before the starting bound. -/
def Line.search_backward (l : Line) (query : List Char) (fromIdx : Nat) :
    Option Nat :=
  if fromIdx = 0 then none
  else
    ((l.find_all query 0
        (if fromIdx = l.grapheme_count then l.string.length
         else l.grapheme_idx_to_byte_idx fromIdx)).getLast?).map Prod.snd

lemma flatten_segCons (c : Char) (K : List (List Char)) :
    (segCons c K).flatten = c :: K.flatten := by
  rcases K with _ | ⟨_ | ⟨d, cl⟩, cls⟩
  · rfl
  · simp [segCons]
  · by_cases hd : combining d
    · simp [segCons, hd]
    · simp [segCons, hd]

lemma seg_flatten : ∀ s : List Char, (segment s).flatten = s := by
  intro s
  induction s with
  | nil => rfl
  | cons c rest ih =>
      simp only [segment]
      rw [flatten_segCons, ih]

lemma segCons_head (c : Char) (K : List (List Char)) :
    ∃ t rest, segCons c K = (c :: t) :: rest := by
  rcases K with _ | ⟨_ | ⟨d, cl⟩, cls⟩
  · exact ⟨[], [], rfl⟩
  · exact ⟨[], cls, rfl⟩
  · by_cases hd : combining d
    · exact ⟨d :: cl, cls, by simp [segCons, hd]⟩
    · exact ⟨[], (d :: cl) :: cls, by simp [segCons, hd]⟩

lemma seg_head (c : Char) (s : List Char) :
    ∃ t rest, segment (c :: s) = (c :: t) :: rest :=
  segCons_head c (segment s)

lemma seg_eq_nil {s : List Char} (h : segment s = []) : s = [] := by
  have := seg_flatten s
  rw [h] at this
  simpa using this.symm

/-- The head cluster of the list, when there is one, starts with a
non-combining character. -/
def headNC : List (List Char) → Prop
  | (d :: _) :: _ => combining d = false
  | _ => True

/-- The shape invariant of segmentation output: clusters are nonempty, only
the head character of a cluster can be non-combining, and every cluster but
possibly the first starts with a non-combining character. -/
def Chain : List (List Char) → Prop
  | [] => True
  | cl :: K => cl ≠ [] ∧ (∀ x ∈ cl.drop 1, combining x = true) ∧ headNC K ∧ Chain K

lemma chain_segCons {K : List (List Char)} (c : Char) (h : Chain K) :
    Chain (segCons c K) := by
  rcases K with _ | ⟨_ | ⟨d, cl⟩, cls⟩
  · exact ⟨by simp, by simp, trivial, trivial⟩
  · exact absurd rfl h.1
  · obtain ⟨hne, htail, hnc, hch⟩ := h
    by_cases hd : combining d
    · simp only [segCons, if_pos hd]
      refine ⟨by simp, ?_, hnc, hch⟩
      intro x hx
      simp only [List.drop_one, List.tail_cons] at hx
      rcases List.mem_cons.mp hx with rfl | hx
      · exact hd
      · exact htail x (by simpa using hx)
    · simp only [segCons, if_neg hd]
      exact ⟨by simp, by simp, by simpa [headNC] using hd, hne, htail, hnc, hch⟩

lemma seg_chain : ∀ s : List Char, Chain (segment s) := by
  intro s
  induction s with
  | nil => trivial
  | cons c rest ih => exact chain_segCons c ih

lemma segCons_of_headNC {K : List (List Char)} (x : Char) (hnc : headNC K)
    (hch : Chain K) : segCons x K = [x] :: K := by
  rcases K with _ | ⟨_ | ⟨d, cl⟩, cls⟩
  · rfl
  · exact absurd rfl hch.1
  · simp only [headNC] at hnc
    simp [segCons, hnc]

lemma seg_of_chain_cons :
    ∀ (cl : List Char) (K : List (List Char)), cl ≠ [] →
      (∀ x ∈ cl.drop 1, combining x = true) → headNC K → Chain K →
      segment K.flatten = K → segment (cl ++ K.flatten) = cl :: K := by
  intro cl
  induction cl with
  | nil => intro K h; exact absurd rfl h
  | cons x cl ih =>
      intro K _ htail hnc hch hK
      rcases cl with _ | ⟨y, cl⟩
      · have hx : (x :: ([] : List Char)) ++ K.flatten = x :: K.flatten := by simp
        rw [hx]
        simp only [segment]
        rw [hK]
        exact segCons_of_headNC x hnc hch
      · have htail' : ∀ z ∈ (y :: cl).drop 1, combining z = true := by
          intro z hz
          exact htail z (by simpa using List.mem_cons_of_mem y (by simpa using hz))
        have hy : combining y = true := htail y (by simp)
        have hstep := ih K (by simp) htail' hnc hch hK
        simp only [List.cons_append] at hstep ⊢
        simp only [segment] at hstep ⊢
        rw [hstep]
        simp [segCons, hy]

lemma seg_of_chain : ∀ K : List (List Char), Chain K → segment K.flatten = K := by
  intro K
  induction K with
  | nil => intro _; rfl
  | cons cl K ih =>
      intro hc
      obtain ⟨hne, htail, hnc, hch⟩ := hc
      simpa using seg_of_chain_cons cl K hne htail hnc hch (ih hch)

lemma chain_ne_nil : ∀ {K : List (List Char)}, Chain K → ∀ cl ∈ K, cl ≠ [] := by
  intro K
  induction K with
  | nil => intro _ cl h; simp at h
  | cons hd t ih =>
      intro hc cl hm
      rcases List.mem_cons.mp hm with rfl | hm
      · exact hc.1
      · exact ih hc.2.2.2 cl hm

lemma headNC_cons {cl : List Char} {K : List (List Char)}
    (h : headNC (cl :: K)) : ∀ d t, cl = d :: t → combining d = false := by
  intro d t hdt
  subst hdt
  exact h

lemma chain_headNC_drop : ∀ (K : List (List Char)) (n : Nat), Chain K → 1 ≤ n →
    headNC (K.drop n) := by
  intro K
  induction K with
  | nil => intro n _ _; simp [headNC]
  | cons cl t ih =>
      intro n hc hn
      rcases n with _ | n
      · omega
      · rcases n with _ | n
        · simpa using hc.2.2.1
        · simpa using ih (n + 1) hc.2.2.2 (by omega)

lemma chain_drop : ∀ (K : List (List Char)) (n : Nat), Chain K → Chain (K.drop n) := by
  intro K
  induction K with
  | nil => intro n _; simp; trivial
  | cons cl t ih =>
      intro n hc
      rcases n with _ | n
      · simpa using hc
      · simpa using ih n hc.2.2.2

lemma chain_prepend_singleton {K : List (List Char)} (c : Char)
    (hnc : headNC K) (hch : Chain K) : Chain ([c] :: K) :=
  ⟨by simp, by simp, hnc, hch⟩

lemma chain_insert :
    ∀ (K : List (List Char)) (n : Nat) (c : Char), Chain K →
      combining c = false → 1 ≤ n →
      Chain (K.take n ++ [c] :: K.drop n) := by
  intro K
  induction K with
  | nil =>
      intro n c _ hc _
      simp only [List.take_nil, List.drop_nil, List.nil_append]
      exact ⟨by simp, by simp, trivial, trivial⟩
  | cons cl t ih =>
      intro n c hch hc hn
      rcases n with _ | n
      · omega
      · simp only [List.take_succ_cons, List.drop_succ_cons, List.cons_append]
        rcases n with _ | n
        · simp only [List.take_zero, List.drop_zero, List.nil_append]
          exact ⟨hch.1, hch.2.1, by simpa [headNC] using hc,
            chain_prepend_singleton c hch.2.2.1 hch.2.2.2⟩
        · refine ⟨hch.1, hch.2.1, ?_, ih (n + 1) c hch.2.2.2 hc (by omega)⟩
          rcases t with _ | ⟨cl2, t2⟩
          · simp only [List.take_nil, List.drop_nil, List.nil_append]
            show headNC ([c] :: [])
            simpa [headNC] using hc
          · simp only [List.take_succ_cons, List.cons_append]
            have hbase : headNC (cl2 :: t2) := hch.2.2.1
            rcases cl2 with _ | ⟨d2, t3⟩
            · exact absurd rfl (hch.2.2.2.1)
            · exact hbase

lemma segCons_length_cons (x d : Char) (t : List Char)
    (r : List (List Char)) :
    (segCons x ((d :: t) :: r)).length =
      if combining d then ((d :: t) :: r).length
      else ((d :: t) :: r).length + 1 := by
  by_cases hd : combining d
  · simp [segCons, hd]
  · simp [segCons, hd]

lemma seg_len_cons_combining {c d : Char} (hd : combining d = true)
    (s : List Char) :
    (segment (c :: d :: s)).length = (segment (d :: s)).length := by
  obtain ⟨t, r, hr⟩ := seg_head d s
  show (segCons c (segment (d :: s))).length = _
  rw [hr, segCons_length_cons, if_pos hd]

lemma seg_len_insert_combining {c : Char} (hc : combining c = true) :
    ∀ (u v : List Char), u ≠ [] →
      (segment (u ++ c :: v)).length = (segment (u ++ v)).length := by
  intro u
  induction u with
  | nil => intro v h; exact absurd rfl h
  | cons x u' ih =>
      intro v _
      rcases u' with _ | ⟨y, u''⟩
      · show (segCons x (segment (c :: v))).length = (segCons x (segment v)).length
        show (segCons x (segCons c (segment v))).length = _
        have hch := seg_chain v
        rcases hK : segment v with _ | ⟨_ | ⟨d, cl⟩, cls⟩
        · simp [segCons, hc]
        · rw [hK] at hch
          exact absurd rfl hch.1
        · by_cases hd : combining d
          · simp [segCons, hd, hc]
          · simp [segCons, hd, hc]
      · have hlen := ih v (by simp)
        simp only [List.cons_append] at hlen ⊢
        obtain ⟨t1, r1, h1⟩ := seg_head y (u'' ++ c :: v)
        obtain ⟨t2, r2, h2⟩ := seg_head y (u'' ++ v)
        show (segCons x (segment (y :: (u'' ++ c :: v)))).length =
          (segCons x (segment (y :: (u'' ++ v)))).length
        rw [h1, h2] at hlen ⊢
        rw [segCons_length_cons, segCons_length_cons]
        simp only [List.length_cons] at hlen ⊢
        by_cases hy : combining y
        · rw [if_pos hy, if_pos hy]
          simpa using hlen
        · rw [if_neg hy, if_neg hy]
          simpa using hlen

lemma fragsFrom_length : ∀ (K : List (List Char)) (pos : Nat),
    (fragsFrom pos K).length = K.length := by
  intro K
  induction K with
  | nil => intro pos; rfl
  | cons cl t ih => intro pos; simp [fragsFrom, ih]

lemma clusterStart_zero (K : List (List Char)) : clusterStart K 0 = 0 := by
  simp [clusterStart]

lemma clusterStart_cons_succ (cl : List Char) (cls : List (List Char))
    (i : Nat) :
    clusterStart (cl :: cls) (i + 1) = cl.length + clusterStart cls i := by
  simp [clusterStart, List.take_succ_cons]

lemma clusterStart_flatten_take (K : List (List Char)) (i : Nat) :
    (K.take i).flatten.length = clusterStart K i := by
  rw [List.length_flatten]
  rfl

lemma clusterStart_mono : ∀ (K : List (List Char)) {i j : Nat}, i ≤ j →
    clusterStart K i ≤ clusterStart K j := by
  intro K
  induction K with
  | nil => intro i j _; simp [clusterStart]
  | cons cl t ih =>
      intro i j hij
      rcases i with _ | i
      · simp [clusterStart_zero]
      · rcases j with _ | j
        · omega
        · rw [clusterStart_cons_succ, clusterStart_cons_succ]
          exact Nat.add_le_add_left (ih (by omega)) _

lemma clusterStart_strict : ∀ (K : List (List Char)) {i : Nat},
    (∀ cl ∈ K, cl ≠ []) → i < K.length →
    clusterStart K i < clusterStart K (i + 1) := by
  intro K
  induction K with
  | nil => intro i _ h; simp at h
  | cons cl t ih =>
      intro i hne hi
      rcases i with _ | i
      · rw [clusterStart_zero, clusterStart_cons_succ, clusterStart_zero]
        have : cl ≠ [] := hne cl (by simp)
        have : 0 < cl.length := List.length_pos.mpr this
        omega
      · rw [clusterStart_cons_succ, clusterStart_cons_succ]
        have := ih (fun c hc => hne c (List.mem_cons_of_mem _ hc)) (by simpa using hi)
        omega

lemma clusterStart_lt {K : List (List Char)} {i j : Nat}
    (hne : ∀ cl ∈ K, cl ≠ []) (hij : i < j) (hj : j ≤ K.length) :
    clusterStart K i < clusterStart K j := by
  have h1 : clusterStart K i < clusterStart K (i + 1) :=
    clusterStart_strict K hne (by omega)
  exact lt_of_lt_of_le h1 (clusterStart_mono K (by omega))

lemma clusterStart_full (K : List (List Char)) :
    clusterStart K K.length = K.flatten.length := by
  rw [← clusterStart_flatten_take, List.take_length]

lemma clusterStart_le_flatten (K : List (List Char)) (i : Nat) :
    clusterStart K i ≤ K.flatten.length := by
  rcases le_or_lt i K.length with h | h
  · rw [← clusterStart_full]
    exact clusterStart_mono K h
  · have : K.take i = K := List.take_of_length_le (by omega)
    unfold clusterStart
    rw [this, ← List.length_flatten]

lemma fragsFrom_getElem? : ∀ (K : List (List Char)) (pos i : Nat),
    (fragsFrom pos K)[i]? =
      K[i]?.map (fun cl => ⟨cl, pos + clusterStart K i⟩) := by
  intro K
  induction K with
  | nil => intro pos i; simp [fragsFrom]
  | cons cl t ih =>
      intro pos i
      rcases i with _ | i
      · simp [fragsFrom, clusterStart_zero]
      · simp only [fragsFrom, List.getElem?_cons_succ, ih (pos + cl.length) i,
          clusterStart_cons_succ]
        rcases t[i]? with _ | cl2
        · rfl
        · simp [Nat.add_assoc]

lemma position_lt {α : Type} {p : α → Bool} :
    ∀ {l : List α} {j : Nat}, position p l = some j → j < l.length := by
  intro l
  induction l with
  | nil => intro j h; simp [position] at h
  | cons x t ih =>
      intro j h
      simp only [position] at h
      by_cases hx : p x
      · rw [if_pos hx] at h
        simp at h
        simp only [List.length_cons]
        omega
      · rw [if_neg hx] at h
        rcases hpos : position p t with _ | j'
        · rw [hpos] at h; simp at h
        · rw [hpos] at h
          simp at h
          have := ih hpos
          simp only [List.length_cons]
          omega

lemma position_frags_some :
    ∀ (K : List (List Char)) (pos j b : Nat), (∀ cl ∈ K, cl ≠ []) →
      j < K.length → b = pos + clusterStart K j →
      position (fun fr => decide (b ≤ fr.start)) (fragsFrom pos K) = some j := by
  intro K
  induction K with
  | nil => intro pos j b _ h; simp at h
  | cons cl t ih =>
      intro pos j b hne hj hb
      rcases j with _ | j
      · rw [clusterStart_zero] at hb
        simp [fragsFrom, position, hb]
      · rw [clusterStart_cons_succ] at hb
        have hcl : 0 < cl.length := List.length_pos.mpr (hne cl (by simp))
        simp only [fragsFrom, position]
        rw [if_neg (by simp; omega)]
        rw [ih (pos + cl.length) j b
          (fun c hc => hne c (List.mem_cons_of_mem _ hc))
          (by simpa using hj) (by omega)]
        rfl

lemma position_frags_none :
    ∀ (K : List (List Char)) (pos b : Nat),
      (∀ j, j < K.length → pos + clusterStart K j < b) →
      position (fun fr => decide (b ≤ fr.start)) (fragsFrom pos K) = none := by
  intro K
  induction K with
  | nil => intro pos b _; rfl
  | cons cl t ih =>
      intro pos b hlt
      have h0 := hlt 0 (by simp)
      rw [clusterStart_zero] at h0
      simp only [fragsFrom, position]
      rw [if_neg (by simp; omega)]
      rw [ih (pos + cl.length) b ?_]
      · rfl
      · intro j hj
        have := hlt (j + 1) (by simpa using hj)
        rw [clusterStart_cons_succ] at this
        omega

lemma count_fromStr (s : List Char) :
    (Line.fromStr s).grapheme_count = (segment s).length := by
  simp [Line.fromStr, Line.grapheme_count, fragsFrom_length]

lemma take_flatten_of_len {A : List Char} {s : List Char} {B : List Char}
    (h : s = A ++ B) : s.take A.length = A := by
  subst h
  exact List.take_left A B

lemma drop_flatten_of_len {A : List Char} {s : List Char} {B : List Char}
    (h : s = A ++ B) : s.drop A.length = B := by
  subst h
  exact List.drop_left A B

lemma insert_char_string (s : List Char) (c : Char) (i : Nat)
    (hi : i ≤ (segment s).length) :
    (Line.fromStr s).insert_char c i =
      Line.fromStr (((segment s).take i).flatten ++
        c :: ((segment s).drop i).flatten) := by
  have hs : s = (segment s).flatten := (seg_flatten s).symm
  have hsplit : (segment s).flatten =
      ((segment s).take i).flatten ++ ((segment s).drop i).flatten := by
    rw [← List.flatten_append, List.take_append_drop]
  have hlenA : ((segment s).take i).flatten.length = clusterStart (segment s) i :=
    clusterStart_flatten_take (segment s) i
  unfold Line.insert_char
  by_cases hik : i < (segment s).length
  · have hfr : (Line.fromStr s).fragments[i]? =
        some ⟨(segment s)[i], clusterStart (segment s) i⟩ := by
      show (fragsFrom 0 (segment s))[i]? = _
      rw [fragsFrom_getElem?, List.getElem?_eq_getElem hik]
      simp
    rw [hfr]
    show Line.fromStr (insertAt s (clusterStart (segment s) i) c) = _
    congr 1
    unfold insertAt
    have h1 : s.take (clusterStart (segment s) i) = ((segment s).take i).flatten := by
      rw [← hlenA]
      exact take_flatten_of_len (by rw [← hsplit, ← hs])
    have h2 : s.drop (clusterStart (segment s) i) = ((segment s).drop i).flatten := by
      rw [← hlenA]
      exact drop_flatten_of_len (by rw [← hsplit, ← hs])
    rw [h1, h2]
  · have hieq : i = (segment s).length := by omega
    have hfr : (Line.fromStr s).fragments[i]? = none := by
      apply List.getElem?_eq_none
      show (fragsFrom 0 (segment s)).length ≤ i
      rw [fragsFrom_length]
      omega
    rw [hfr]
    show Line.fromStr (s ++ [c]) = _
    congr 1
    subst hieq
    rw [List.take_length, List.drop_length]
    simp [← hs]

lemma seg_insert_eq (s : List Char) (c : Char) (i : Nat)
    (hi : i ≤ (segment s).length)
    (hlen : (segment (((segment s).take i).flatten ++
        c :: ((segment s).drop i).flatten)).length = (segment s).length + 1) :
    segment (((segment s).take i).flatten ++ c :: ((segment s).drop i).flatten) =
      (segment s).take i ++ [c] :: (segment s).drop i := by
  have hch : Chain (segment s) := seg_chain s
  have hs : (segment s).flatten = s := seg_flatten s
  rcases Nat.eq_zero_or_pos i with hi0 | hipos
  · subst hi0
    simp only [List.take_zero, List.drop_zero, List.flatten_nil, List.nil_append]
    rcases hKc : segment s with _ | ⟨cl, cls⟩
    · rfl
    · rcases cl with _ | ⟨d, t⟩
      · rw [hKc] at hch
        exact absurd rfl hch.1
      · by_cases hd : combining d
        · exfalso
          rw [hKc] at hs
          simp only [List.flatten_cons, List.cons_append] at hs
          have hform : ((d :: t) :: cls).flatten = d :: (t ++ cls.flatten) := by simp
          rw [hKc] at hlen
          simp only [List.take_zero, List.drop_zero, List.flatten_nil,
            List.nil_append] at hlen
          rw [hform] at hlen
          rw [seg_len_cons_combining hd] at hlen
          rw [hs, hKc] at hlen
          simp at hlen
        · have hnc : headNC (segment s) := by
            rw [hKc]
            show combining d = false
            simpa using hd
          have hchain2 : Chain ([c] :: segment s) :=
            chain_prepend_singleton c hnc hch
          have hres := seg_of_chain ([c] :: segment s) hchain2
          simp only [List.flatten_cons, List.singleton_append] at hres
          rw [hs] at hres
          rw [← hKc, hs]
          exact hres
  · by_cases hcomb : combining c
    · exfalso
      have hKlen : 1 ≤ (segment s).length := by omega
      have hne : ((segment s).take i).flatten ≠ [] := by
        intro hnil
        have h0 : ((segment s).take i).flatten.length = 0 := by rw [hnil]; rfl
        rw [clusterStart_flatten_take] at h0
        have := clusterStart_lt (K := segment s)
          (chain_ne_nil hch) (show 0 < i by omega) (by omega)
        rw [clusterStart_zero] at this
        omega
      have := seg_len_insert_combining hcomb ((segment s).take i).flatten
        ((segment s).drop i).flatten hne
      rw [this] at hlen
      rw [← List.flatten_append, List.take_append_drop, hs] at hlen
      omega
    · have hchain2 : Chain ((segment s).take i ++ [c] :: (segment s).drop i) :=
        chain_insert (segment s) i c hch (by simpa using hcomb) hipos
      have := seg_of_chain _ hchain2
      rw [List.flatten_append] at this
      simp only [List.flatten_cons, List.singleton_append] at this
      exact this

lemma Line.delete_eq_of_get {l : Line} {g : Nat} {fr : TextFragment}
    (h : l.fragments[g]? = some fr) :
    l.delete g =
      Line.fromStr (eraseRange l.string fr.start (fr.start + fr.grapheme.length)) := by
  unfold Line.delete
  rw [h]

/-- C5 fails as stated: inserting the combining acute accent U+0301 at the
end of the one-grapheme line `"a"` merges it into the existing cluster, so
the following `delete` at the same index is out of range and a no-op, and
the original content is not restored. -/
theorem C5_cex :
    1 ≤ (Line.fromStr ['a']).grapheme_count ∧
    ((Line.fromStr ['a']).insert_char (Char.ofNat 0x301) 1).delete 1 ≠
      Line.fromStr ['a'] := by
  decide

/-- C5 (amended): for every grapheme line, character `c` and index
`at ≤ grapheme_count`, if inserting `c` at `at` increases the grapheme count
by one — that is, `c` does not merge into an adjacent grapheme cluster —
then `insert_char(c, at)` followed by `delete(at)` restores the original
content. -/
theorem C5_insert_delete (s : List Char) (c : Char) (i : Nat)
    (hi : i ≤ (Line.fromStr s).grapheme_count)
    (hc : ((Line.fromStr s).insert_char c i).grapheme_count =
      (Line.fromStr s).grapheme_count + 1) :
    ((Line.fromStr s).insert_char c i).delete i = Line.fromStr s := by
  rw [count_fromStr] at hi
  rw [insert_char_string s c i hi] at hc ⊢
  rw [count_fromStr, count_fromStr] at hc
  have hseg := seg_insert_eq s c i hi hc
  have hlenA : ((segment s).take i).flatten.length = clusterStart (segment s) i :=
    clusterStart_flatten_take (segment s) i
  have htake_len : ((segment s).take i).length = i := by
    rw [List.length_take]
    omega
  have htake_eq : ((segment s).take i ++ [c] :: (segment s).drop i).take i =
      (segment s).take i :=
    List.take_left' htake_len
  have hcs_eq : clusterStart
      (segment (((segment s).take i).flatten ++ c :: ((segment s).drop i).flatten)) i =
      clusterStart (segment s) i := by
    rw [hseg]
    unfold clusterStart
    rw [htake_eq]
  have hget : ((segment s).take i ++ [c] :: (segment s).drop i)[i]? = some [c] := by
    rw [List.getElem?_append, htake_len, if_neg (lt_irrefl i)]
    simp
  have hfr : (Line.fromStr (((segment s).take i).flatten ++
      c :: ((segment s).drop i).flatten)).fragments[i]? =
      some ⟨[c], clusterStart (segment s) i⟩ := by
    show (fragsFrom 0 (segment (((segment s).take i).flatten ++
      c :: ((segment s).drop i).flatten)))[i]? = _
    rw [fragsFrom_getElem?, hcs_eq, hseg, hget]
    simp
  rw [Line.delete_eq_of_get hfr]
  congr 1
  show eraseRange (((segment s).take i).flatten ++ c :: ((segment s).drop i).flatten)
    (clusterStart (segment s) i) (clusterStart (segment s) i + [c].length) = s
  have hone : [c].length = 1 := rfl
  rw [hone]
  unfold eraseRange
  have h1 : (((segment s).take i).flatten ++ c :: ((segment s).drop i).flatten).take
      (clusterStart (segment s) i) = ((segment s).take i).flatten :=
    List.take_left' hlenA
  have h2 : (((segment s).take i).flatten ++ c :: ((segment s).drop i).flatten).drop
      (clusterStart (segment s) i + 1) = ((segment s).drop i).flatten := by
    have hsplit : ((segment s).take i).flatten ++ c :: ((segment s).drop i).flatten =
        (((segment s).take i).flatten ++ [c]) ++ ((segment s).drop i).flatten := by
      simp
    rw [hsplit]
    exact List.drop_left' (by simp [hlenA])
  rw [h1, h2, ← List.flatten_append, List.take_append_drop, seg_flatten]

theorem C5_insert_delete_witness :
    1 ≤ (Line.fromStr ['a', 'b']).grapheme_count ∧
    ((Line.fromStr ['a', 'b']).insert_char 'x' 1).grapheme_count =
      (Line.fromStr ['a', 'b']).grapheme_count + 1 ∧
    ((Line.fromStr ['a', 'b']).insert_char 'x' 1).delete 1 =
      Line.fromStr ['a', 'b'] :=
  ⟨by decide, by decide,
    C5_insert_delete ['a', 'b'] 'x' 1 (by decide) (by decide)⟩

lemma map_add_zero (l : List Nat) : l.map (· + 0) = l := by
  induction l with
  | nil => rfl
  | cons x t ih => simp [ih]

lemma head?_filterMap_cons {α β : Type} (f : α → Option β) (x : α)
    (t : List α) {y : β} (h : f x = some y) :
    (List.filterMap f (x :: t)).head? = some y := by
  rw [List.filterMap_cons, h]
  rfl

lemma getLast?_filterMap_range {β : Type} (f : Nat → Option β)
    (bstar : Nat) (y : β) (hy : f bstar = some y) :
    ∀ e : Nat, bstar ≤ e → (∀ b, bstar < b → b ≤ e → f b = none) →
      (List.filterMap f (List.range (e + 1))).getLast? = some y := by
  intro e
  induction e with
  | zero =>
      intro hb _
      have : bstar = 0 := by omega
      subst this
      show (List.filterMap f [0]).getLast? = some y
      rw [List.filterMap_cons, hy]
      rfl
  | succ e ih =>
      intro hb hnone
      rw [List.range_succ, List.filterMap_append]
      by_cases hbe : bstar = e + 1
      · show (_ ++ List.filterMap f [e + 1]).getLast? = some y
        rw [show e + 1 = bstar from hbe.symm, List.filterMap_cons, hy]
        exact List.getLast?_concat _
      · have hfe : f (e + 1) = none := hnone (e + 1) (by omega) (by omega)
        show (_ ++ List.filterMap f [e + 1]).getLast? = some y
        rw [List.filterMap_cons, hfe]
        simp only [List.filterMap_nil, List.append_nil]
        exact ih (by omega) (fun b h1 h2 => hnone b h1 (by omega))

lemma byte_idx_cluster (s : List Char) {j : Nat} (hj : j < (segment s).length) :
    (Line.fromStr s).byte_idx_to_grapheme_idx (clusterStart (segment s) j) =
      some j := by
  unfold Line.byte_idx_to_grapheme_idx
  have hle : clusterStart (segment s) j ≤ s.length := by
    have := clusterStart_le_flatten (segment s) j
    rwa [seg_flatten] at this
  rw [if_neg (by show ¬ ((Line.fromStr s).string.length < _); simp [Line.fromStr]; omega)]
  exact position_frags_some (segment s) 0 j _ (chain_ne_nil (seg_chain s)) hj
    (by omega)

lemma byte_idx_none_of_gt (s : List Char) {b : Nat} (hb : b ≤ s.length)
    (hgt : ∀ j, j < (segment s).length → clusterStart (segment s) j < b) :
    (Line.fromStr s).byte_idx_to_grapheme_idx b = none := by
  unfold Line.byte_idx_to_grapheme_idx
  rw [if_neg (by show ¬ ((Line.fromStr s).string.length < _); simp [Line.fromStr]; omega)]
  exact position_frags_none (segment s) 0 b (by simpa using hgt)

lemma gidx_to_byte (s : List Char) {g : Nat} (hg : g < (segment s).length) :
    (Line.fromStr s).grapheme_idx_to_byte_idx g = clusterStart (segment s) g := by
  unfold Line.grapheme_idx_to_byte_idx
  by_cases hg0 : g = 0
  · subst hg0
    rw [if_pos (Or.inl rfl), clusterStart_zero]
  · rw [if_neg (by
      push_neg
      refine ⟨hg0, ?_⟩
      show ¬ (Line.fromStr s).grapheme_count = 0
      rw [count_fromStr]
      omega)]
    have : (Line.fromStr s).fragments[g]? =
        some ⟨(segment s)[g], clusterStart (segment s) g⟩ := by
      show (fragsFrom 0 (segment s))[g]? = _
      rw [fragsFrom_getElem?, List.getElem?_eq_getElem hg]
      simp
    rw [this]

lemma mgc_empty (l : Line) (ms : List Nat) :
    l.match_grapheme_clusters ms [] =
      ms.filterMap (fun b =>
        (l.byte_idx_to_grapheme_idx b).map (fun g' => (b, g'))) := by
  unfold Line.match_grapheme_clusters
  congr 1
  funext b
  cases hb : l.byte_idx_to_grapheme_idx b with
  | none => rfl
  | some g' =>
      have hg' : g' < l.fragments.length := by
        unfold Line.byte_idx_to_grapheme_idx at hb
        by_cases hlen : l.string.length < b
        · rw [if_pos hlen] at hb
          simp at hb
        · rw [if_neg hlen] at hb
          exact position_lt hb
      have h0 : segment ([] : List Char) = [] := rfl
      show (if g' + (segment ([] : List Char)).length ≤ l.fragments.length then
          if (((l.fragments.drop g').take
              (segment ([] : List Char)).length).map
              TextFragment.grapheme).flatten = ([] : List Char) then
            some ((b, g') : Nat × Nat)
          else none
        else none) = some (b, g')
      rw [if_pos (by rw [h0]; simp only [List.length_nil, Nat.add_zero]; omega)]
      rw [if_pos (by rw [h0]; simp)]

lemma find_all_empty_fwd (s : List Char) {st : Nat} (hst : st ≤ s.length) :
    (Line.fromStr s).find_all [] st s.length =
      ((List.range (s.length - st + 1)).map (· + st)).filterMap (fun b =>
        ((Line.fromStr s).byte_idx_to_grapheme_idx b).map (fun g' => (b, g'))) := by
  unfold Line.find_all
  have hstr : (Line.fromStr s).string = s := rfl
  rw [hstr]
  rw [if_neg (by simp; omega)]
  rw [mgc_empty]
  congr 2
  show matchIndices [] (slice s st (min s.length s.length)) = _
  rw [min_self]
  unfold matchIndices
  rw [if_pos (show ([] : List Char).isEmpty = true from rfl)]
  congr 1
  unfold slice
  rw [List.take_length, List.length_drop]

lemma find_all_empty_bwd (s : List Char) {e : Nat} (he : e ≤ s.length) :
    (Line.fromStr s).find_all [] 0 e =
      (List.range (e + 1)).filterMap (fun b =>
        ((Line.fromStr s).byte_idx_to_grapheme_idx b).map (fun g' => (b, g'))) := by
  unfold Line.find_all
  have hstr : (Line.fromStr s).string = s := rfl
  rw [hstr]
  rw [if_neg (by omega)]
  rw [mgc_empty]
  congr 1
  show (matchIndices [] (slice s 0 (min e s.length))).map (· + 0) = _
  rw [map_add_zero]
  rw [min_eq_left he]
  unfold matchIndices
  rw [if_pos (show ([] : List Char).isEmpty = true from rfl)]
  congr 1
  unfold slice
  rw [List.drop_zero, List.length_take]
  omega

/-- C8 fails as stated: on the line `"a"`, an empty query is found — forward
search from index 0 returns index 0 and backward search from index 1
returns index 0 — because the underlying byte search matches the empty
pattern at every character boundary. -/
theorem C8_cex :
    (Line.fromStr ['a']).search_forward [] 0 = some 0 ∧
    (Line.fromStr ['a']).search_backward [] 1 = some 0 := by
  decide

/-- C8 (amended): with an empty query and a valid starting index,
`search_forward` returns "not found" only when the index equals the
grapheme count, otherwise it reports a match at the starting index itself;
`search_backward` returns "not found" only when the index is 0, otherwise
it reports a match at `min(start, grapheme_count - 1)`. -/
theorem C8_empty_query (s : List Char) (g : Nat)
    (hg : g ≤ (Line.fromStr s).grapheme_count) :
    (Line.fromStr s).search_forward [] g =
      (if g = (Line.fromStr s).grapheme_count then none else some g) ∧
    (Line.fromStr s).search_backward [] g =
      (if g = 0 then none
       else some (min g ((Line.fromStr s).grapheme_count - 1))) := by
  have hcount := count_fromStr s
  have hstr : (Line.fromStr s).string = s := rfl
  constructor
  · by_cases hgc : g = (Line.fromStr s).grapheme_count
    · rw [if_pos hgc]
      unfold Line.search_forward
      rw [if_pos hgc]
    · rw [if_neg hgc]
      unfold Line.search_forward
      rw [if_neg hgc]
      have hglt : g < (segment s).length := by omega
      rw [gidx_to_byte s hglt, hstr]
      have hstle : clusterStart (segment s) g ≤ s.length := by
        have := clusterStart_le_flatten (segment s) g
        rwa [seg_flatten] at this
      rw [find_all_empty_fwd s hstle]
      have hrange : (List.range (s.length - clusterStart (segment s) g + 1)).map
          (· + clusterStart (segment s) g) =
          clusterStart (segment s) g ::
            ((List.range (s.length - clusterStart (segment s) g)).map
              Nat.succ).map (· + clusterStart (segment s) g) := by
        rw [List.range_succ_eq_map]
        simp
      rw [hrange]
      have hsome' : ((Line.fromStr s).byte_idx_to_grapheme_idx
          (clusterStart (segment s) g)).map
          (fun g' => (clusterStart (segment s) g, g')) =
          some (clusterStart (segment s) g, g) := by
        rw [byte_idx_cluster s hglt]
        rfl
      rw [head?_filterMap_cons
        (fun b => ((Line.fromStr s).byte_idx_to_grapheme_idx b).map
          (fun g' => (b, g')))
        (clusterStart (segment s) g) _ hsome']
      rfl
  · by_cases hg0 : g = 0
    · rw [if_pos hg0]
      unfold Line.search_backward
      rw [if_pos hg0]
    · rw [if_neg hg0]
      unfold Line.search_backward
      rw [if_neg hg0]
      by_cases hgc : g = (Line.fromStr s).grapheme_count
      · rw [if_pos hgc, hstr]
        rw [find_all_empty_bwd s (le_refl s.length)]
        have hcnt_pos : 0 < (segment s).length := by omega
        have hsome : ((Line.fromStr s).byte_idx_to_grapheme_idx
            (clusterStart (segment s) ((segment s).length - 1))).map
            (fun g' => (clusterStart (segment s) ((segment s).length - 1), g')) =
            some (clusterStart (segment s) ((segment s).length - 1),
              (segment s).length - 1) := by
          rw [byte_idx_cluster s (by omega)]
          rfl
        have hble : clusterStart (segment s) ((segment s).length - 1) ≤ s.length := by
          have := clusterStart_le_flatten (segment s) ((segment s).length - 1)
          rwa [seg_flatten] at this
        rw [getLast?_filterMap_range _ _ _ hsome s.length hble ?hnone]
        case hnone =>
          intro b h1 h2
          rw [byte_idx_none_of_gt s h2 ?_]
          · rfl
          · intro j hj
            have hmono := clusterStart_mono (segment s)
              (show j ≤ (segment s).length - 1 by omega)
            omega
        show some ((segment s).length - 1) = _
        congr 1
        rw [hgc, hcount]
        omega
      · have hglt : g < (segment s).length := by omega
        rw [if_neg hgc, gidx_to_byte s hglt]
        have hble : clusterStart (segment s) g ≤ s.length := by
          have := clusterStart_le_flatten (segment s) g
          rwa [seg_flatten] at this
        rw [find_all_empty_bwd s hble]
        have hsome : ((Line.fromStr s).byte_idx_to_grapheme_idx
            (clusterStart (segment s) g)).map
            (fun g' => (clusterStart (segment s) g, g')) =
            some (clusterStart (segment s) g, g) := by
          rw [byte_idx_cluster s hglt]
          rfl
        rw [getLast?_filterMap_range _ _ _ hsome (clusterStart (segment s) g)
          (le_refl _) (fun b h1 h2 => absurd (lt_of_lt_of_le h1 h2) (lt_irrefl _))]
        show some g = _
        congr 1
        rw [hcount]
        omega

theorem C8_empty_query_witness :
    1 ≤ (Line.fromStr ['a', 'b']).grapheme_count ∧
    ((Line.fromStr ['a', 'b']).search_forward [] 1 =
      (if 1 = (Line.fromStr ['a', 'b']).grapheme_count then none else some 1) ∧
    (Line.fromStr ['a', 'b']).search_backward [] 1 =
      (if 1 = 0 then none
       else some (min 1 ((Line.fromStr ['a', 'b']).grapheme_count - 1)))) :=
  ⟨by decide, C8_empty_query ['a', 'b'] 1 (by decide)⟩

/-- A cursor position: grapheme index within a line plus line index
(`Location`). -/
structure Location where
  grapheme_idx : Nat
  line_idx : Nat
deriving DecidableEq

/-- The document buffer (`Buffer`): its lines, the optional associated file
path (`FileInfo { path: Option<PathBuf> }`) and the modified flag `dirty`. -/
structure Buffer where
  lines : List Line
  file_path : Option (List Char)
  dirty : Bool
deriving DecidableEq

/-- `Buffer::height`: the number of lines. -/
def Buffer.height (b : Buffer) : Nat :=
  b.lines.length

/-- The first `some` produced by the function along the list — the shape of
a `for` loop over an iterator with an early `return`. -/
def firstSome {α β : Type} (f : α → Option β) : List α → Option β
  | [] => none
  | x :: t =>
    match f x with
    | some y => some y
    | none => firstSome f t

/-- `Buffer::search_forward`: nothing for an empty query; otherwise walks
`lines.iter().enumerate().cycle().skip(from.line_idx).take(len + 1)`, which
visits positions `from.line_idx + j` for `j = 0..len` with the true line
index taken modulo `len`; the first visited line starts at
`from.grapheme_idx`, every later one at 0; the first match wins.  A cycle
over no lines yields nothing. -/
def Buffer.search_forward (b : Buffer) (query : List Char)
    (fromLoc : Location) : Option Location :=
  if query.isEmpty then none
  else if b.lines.length = 0 then none
  else
    firstSome (fun j =>
      match b.lines[(fromLoc.line_idx + j) % b.lines.length]? with
      | some line =>
        (line.search_forward query
          (if j = 0 then fromLoc.grapheme_idx else 0)).map
          (fun g => ⟨g, (fromLoc.line_idx + j) % b.lines.length⟩)
      | none => none)
      (List.range (b.lines.length + 1))

/-- Modelled from the spec sentence for `search_forward`: scan lines
beginning at `from.line`, using `from.grapheme` as the starting column only
on that first line and column 0 on every other visited line, wrapping past
the last line back to line 0, visiting at most `height() + 1` lines, and
return the first match. -/
def searchForwardRef (b : Buffer) (query : List Char)
    (fromLoc : Location) : Option Location :=
  firstSome (fun j =>
    match b.lines[if fromLoc.line_idx + j < b.height then fromLoc.line_idx + j
      else fromLoc.line_idx + j - b.height]? with
    | some line =>
      (line.search_forward query
        (if j = 0 then fromLoc.grapheme_idx else 0)).map
        (fun g => ⟨g, if fromLoc.line_idx + j < b.height then fromLoc.line_idx + j
          else fromLoc.line_idx + j - b.height⟩)
    | none => none)
    (List.range (b.height + 1))

/-- `Buffer::insert_char`: at `line_idx == height` push a fresh one-character
line; at a smaller index insert into that line; past the height do nothing.
Both mutating branches set the modified flag. -/
def Buffer.insert_char (b : Buffer) (c : Char) (loc : Location) : Buffer :=
  if loc.line_idx = b.height then
    { b with lines := b.lines ++ [Line.fromStr [c]], dirty := true }
  else
    match b.lines[loc.line_idx]? with
    | some line =>
      { b with
        lines := b.lines.set loc.line_idx (line.insert_char c loc.grapheme_idx),
        dirty := true }
    | none => b

/-- `Buffer::delete`: at or past the end of a line with a following line,
remove the next line and append its text (merge); inside the line, delete
the grapheme in place; otherwise do nothing. -/
def Buffer.delete (b : Buffer) (loc : Location) : Buffer :=
  match b.lines[loc.line_idx]? with
  | none => b
  | some line =>
    if line.grapheme_count ≤ loc.grapheme_idx ∧ loc.line_idx + 1 < b.height then
      match b.lines[loc.line_idx + 1]? with
      | some next_line =>
        { b with
          lines := (b.lines.set loc.line_idx (line.append next_line)).eraseIdx
            (loc.line_idx + 1),
          dirty := true }
      | none => b
    else if loc.grapheme_idx < line.grapheme_count then
      { b with
        lines := b.lines.set loc.line_idx (line.delete loc.grapheme_idx),
        dirty := true }
    else b

/-- `Buffer::insert_newline`: at `line_idx == height` push an empty line; at
a smaller index split the line and insert the tail right after; past the
height do nothing. -/
def Buffer.insert_newline (b : Buffer) (loc : Location) : Buffer :=
  if loc.line_idx = b.height then
    { b with lines := b.lines ++ [Line.fromStr []], dirty := true }
  else
    match b.lines[loc.line_idx]? with
    | some line =>
      { b with
        lines := (b.lines.set loc.line_idx (line.split loc.grapheme_idx).1).insertIdx
          (loc.line_idx + 1) (line.split loc.grapheme_idx).2,
        dirty := true }
    | none => b

/-- `Buffer::save_to_file` in a release build: with a path present the write
either succeeds (`writeOk`) or surfaces the I/O failure; with no path the
`cfg(debug_assertions)` panic is compiled out, nothing is written, and the
function falls through to `Ok(())` — it never returns an error for a
missing path.  `true` models `Ok(())`. -/
def Buffer.save_to_file (_b : Buffer) (fi : Option (List Char))
    (writeOk : Bool) : Bool :=
  match fi with
  | some _ => writeOk
  | none => true

/-- `Buffer::save`: writes through `save_to_file` to the associated path and
clears the modified flag whenever that call returns `Ok`. -/
def Buffer.save (b : Buffer) (writeOk : Bool) : Bool × Buffer :=
  if b.save_to_file b.file_path writeOk then (true, { b with dirty := false })
  else (false, b)

lemma firstSome_congr {α β : Type} (f g : α → Option β) :
    ∀ l : List α, (∀ x ∈ l, f x = g x) → firstSome f l = firstSome g l := by
  intro l
  induction l with
  | nil => intro _; rfl
  | cons x t ih =>
      intro h
      unfold firstSome
      rw [h x (by simp)]
      cases g x with
      | some y => rfl
      | none => exact ih (fun z hz => h z (List.mem_cons_of_mem x hz))

/-- The two-line demonstration buffer of the spec's example. -/
def c6demo : Buffer :=
  ⟨[Line.fromStr ['f', 'o', 'o'], Line.fromStr ['b', 'a', 'r']], none, false⟩

/-- C6: for every buffer, non-empty query and starting location on an
existing line, `Buffer::search_forward` equals the reference description —
scan lines beginning at `from.line`, `from.grapheme` as starting column only
on that first line and 0 on every other, wrapping past the last line back
to line 0, visiting at most `height() + 1` lines, first match wins; on the
buffer `["foo", "bar"]` searching "bar" from line 0 grapheme 0 yields line 1
grapheme 0, and a query absent from the whole buffer yields nothing after
the full wrap-around. -/
theorem C6_search_forward (b : Buffer) (query : List Char)
    (fromLoc : Location) (hq : query ≠ [])
    (hl : fromLoc.line_idx < b.height) :
    b.search_forward query fromLoc = searchForwardRef b query fromLoc ∧
    c6demo.search_forward ['b', 'a', 'r'] ⟨0, 0⟩ = some ⟨0, 1⟩ ∧
    c6demo.search_forward ['q', 'u', 'x'] ⟨0, 0⟩ = none := by
  refine ⟨?_, by decide, by decide⟩
  have hh : b.height = b.lines.length := rfl
  unfold Buffer.search_forward searchForwardRef
  rw [if_neg (by
    intro hemp
    exact hq (List.isEmpty_iff.mp hemp))]
  rw [if_neg (by omega)]
  rw [hh]
  apply firstSome_congr
  intro j hj
  have hjle : j ≤ b.lines.length := by
    have := List.mem_range.mp hj
    omega
  have hlen_pos : 0 < b.lines.length := by omega
  have hmod : (fromLoc.line_idx + j) % b.lines.length =
      if fromLoc.line_idx + j < b.lines.length then fromLoc.line_idx + j
      else fromLoc.line_idx + j - b.lines.length := by
    by_cases hcase : fromLoc.line_idx + j < b.lines.length
    · rw [if_pos hcase]
      exact Nat.mod_eq_of_lt (by omega)
    · rw [if_neg hcase]
      rw [Nat.mod_eq_sub_mod (by omega)]
      exact Nat.mod_eq_of_lt (by rw [hh] at hl; omega)
  rw [hmod]

theorem C6_search_forward_witness :
    (['b', 'a', 'r'] : List Char) ≠ [] ∧
    (⟨0, 0⟩ : Location).line_idx < c6demo.height ∧
    (c6demo.search_forward ['b', 'a', 'r'] ⟨0, 0⟩ =
        searchForwardRef c6demo ['b', 'a', 'r'] ⟨0, 0⟩ ∧
      c6demo.search_forward ['b', 'a', 'r'] ⟨0, 0⟩ = some ⟨0, 1⟩ ∧
      c6demo.search_forward ['q', 'u', 'x'] ⟨0, 0⟩ = none) :=
  ⟨by decide, by decide,
    C6_search_forward c6demo ['b', 'a', 'r'] ⟨0, 0⟩ (by decide) (by decide)⟩

lemma Buffer.delete_line_cases {b : Buffer} {loc : Location} {line : Line}
    (h : b.lines[loc.line_idx]? = some line) :
    b.delete loc =
      if line.grapheme_count ≤ loc.grapheme_idx ∧ loc.line_idx + 1 < b.height then
        match b.lines[loc.line_idx + 1]? with
        | some next_line =>
          { b with
            lines := (b.lines.set loc.line_idx (line.append next_line)).eraseIdx
              (loc.line_idx + 1),
            dirty := true }
        | none => b
      else if loc.grapheme_idx < line.grapheme_count then
        { b with
          lines := b.lines.set loc.line_idx (line.delete loc.grapheme_idx),
          dirty := true }
      else b := by
  unfold Buffer.delete
  rw [h]

/-- C7: deleting at or past the end of a line merges the following line's
text onto it and shrinks the line count by one when a following line
exists, and leaves every line unchanged when the line is the very last
one. -/
theorem C7_delete_boundary (b : Buffer) (loc : Location) (line : Line)
    (hl : b.lines[loc.line_idx]? = some line)
    (hg : line.grapheme_count ≤ loc.grapheme_idx) :
    (∀ next, b.lines[loc.line_idx + 1]? = some next →
      (b.delete loc).height = b.height - 1 ∧
      (b.delete loc).lines[loc.line_idx]? =
        some (Line.fromStr (line.string ++ next.string))) ∧
    (b.lines[loc.line_idx + 1]? = none → (b.delete loc).lines = b.lines) := by
  have hlt : loc.line_idx < b.lines.length := by
    by_contra hcon
    rw [List.getElem?_eq_none (by omega)] at hl
    simp at hl
  constructor
  · intro next hnext
    have hlt2 : loc.line_idx + 1 < b.lines.length := by
      by_contra hcon
      rw [List.getElem?_eq_none (by omega)] at hnext
      simp at hnext
    rw [Buffer.delete_line_cases hl]
    rw [if_pos ⟨hg, show loc.line_idx + 1 < b.height from hlt2⟩]
    rw [hnext]
    constructor
    · show ((b.lines.set loc.line_idx (line.append next)).eraseIdx
        (loc.line_idx + 1)).length = b.lines.length - 1
      rw [List.length_eraseIdx]
      simp only [List.length_set]
      rw [if_pos hlt2]
    · show ((b.lines.set loc.line_idx (line.append next)).eraseIdx
        (loc.line_idx + 1))[loc.line_idx]? = _
      rw [List.eraseIdx_eq_take_drop_succ]
      rw [List.getElem?_append]
      rw [if_pos (by
        rw [List.length_take, List.length_set]
        omega)]
      rw [List.getElem?_take, if_pos (by omega)]
      rw [List.getElem?_set_self (by simpa using hlt)]
      rfl
  · intro hnone
    have hge : b.lines.length ≤ loc.line_idx + 1 :=
      List.getElem?_eq_none_iff.mp hnone
    rw [Buffer.delete_line_cases hl]
    rw [if_neg (by
      intro hcon
      have h2 : loc.line_idx + 1 < b.lines.length := hcon.2
      omega)]
    rw [if_neg (by omega)]

/-- A two-line buffer used as a concrete input for `C7_delete_boundary`. -/
def c7demo : Buffer :=
  ⟨[Line.fromStr ['a', 'b'], Line.fromStr ['c', 'd']], none, false⟩

/-- A one-line buffer used as a concrete input for `C7_delete_boundary`. -/
def c7one : Buffer :=
  ⟨[Line.fromStr ['a', 'b']], none, false⟩

theorem C7_delete_boundary_witness :
    (c7demo.lines[0]? = some (Line.fromStr ['a', 'b']) ∧
      (Line.fromStr ['a', 'b']).grapheme_count ≤ 2 ∧
      c7demo.lines[0 + 1]? = some (Line.fromStr ['c', 'd']) ∧
      (c7demo.delete ⟨2, 0⟩).height = c7demo.height - 1 ∧
      (c7demo.delete ⟨2, 0⟩).lines[0]? =
        some (Line.fromStr ((Line.fromStr ['a', 'b']).string ++
          (Line.fromStr ['c', 'd']).string))) ∧
    (c7one.lines[0 + 1]? = none ∧ (c7one.delete ⟨2, 0⟩).lines = c7one.lines) :=
  ⟨⟨by decide, by decide, by decide,
    ((C7_delete_boundary c7demo ⟨2, 0⟩ (Line.fromStr ['a', 'b']) (by decide)
        (by decide)).1 (Line.fromStr ['c', 'd']) (by decide)).1,
    ((C7_delete_boundary c7demo ⟨2, 0⟩ (Line.fromStr ['a', 'b']) (by decide)
        (by decide)).1 (Line.fromStr ['c', 'd']) (by decide)).2⟩,
   ⟨by decide,
    (C7_delete_boundary c7one ⟨2, 0⟩ (Line.fromStr ['a', 'b']) (by decide)
        (by decide)).2 (by decide)⟩⟩

/-- A dirty buffer with no associated file path. -/
def noPathBuf : Buffer :=
  ⟨[Line.fromStr ['h', 'i']], none, true⟩

/-- C9: the code disagrees with the claim (and with its own documentation):
`save()` on a buffer with no associated path returns success — in a release
build `save_to_file` skips the write and falls through to `Ok(())` — and
therefore clears the modified flag, even though nothing was written
(`writeOk = false` records that no I/O could have succeeded). -/
theorem C9_save_no_path :
    (noPathBuf.save false).1 = true ∧ (noPathBuf.save false).2.dirty = false := by
  decide

/-- C10: an edit addressed at an out-of-range line index — strictly beyond
the height for `insert_char` and `insert_newline`, at or beyond it for
`delete` — leaves the whole buffer, modified flag included, unchanged. -/
theorem C10_out_of_range_noop (b : Buffer) (c : Char) (loc : Location) :
    (b.height < loc.line_idx →
      b.insert_char c loc = b ∧ b.insert_newline loc = b) ∧
    (b.height ≤ loc.line_idx → b.delete loc = b) := by
  constructor
  · intro h
    have hlen : b.lines.length < loc.line_idx := h
    have hget : b.lines[loc.line_idx]? = none :=
      List.getElem?_eq_none (by omega)
    constructor
    · unfold Buffer.insert_char
      rw [if_neg (by omega), hget]
    · unfold Buffer.insert_newline
      rw [if_neg (by omega), hget]
  · intro h
    have hlen : b.lines.length ≤ loc.line_idx := h
    have hget : b.lines[loc.line_idx]? = none :=
      List.getElem?_eq_none (by omega)
    unfold Buffer.delete
    rw [hget]

/-- A one-line buffer used as a concrete input for `C10_out_of_range_noop`. -/
def c10demo : Buffer :=
  ⟨[Line.fromStr ['a']], none, false⟩

theorem C10_out_of_range_noop_witness :
    c10demo.height < 3 ∧ c10demo.height ≤ 3 ∧
    (c10demo.insert_char 'x' ⟨0, 3⟩ = c10demo ∧
      c10demo.insert_newline ⟨0, 3⟩ = c10demo) ∧
    c10demo.delete ⟨0, 3⟩ = c10demo :=
  ⟨by decide, by decide,
    (C10_out_of_range_noop c10demo 'x' ⟨0, 3⟩).1 (by decide),
    (C10_out_of_range_noop c10demo 'x' ⟨0, 3⟩).2 (by decide)⟩

end Hecto
